import Mathlib

/-!
Shallow embedding of the `arith` crate (`src/lib.rs`): a mapping from string
keys to numeric values with elementwise arithmetic.  The Rust struct
`ArithMap<'a, V> { hashmap: HashMap<&'a str, V> }` is modelled by its entry
list; a real `HashMap` never holds two entries with the same key, which the
embedding records as the `NodupKeys` predicate.  Iteration order of a
`HashMap` is unspecified, so the theorems are stated at the level of
`lookup` / entry membership, which is exactly the observable equality of the
derived `PartialEq` on `HashMap` (same set of key-value pairs).
`Default::default()` on the numeric value type is its zero, written `0` here
(the spec fixes zero as the additive identity of the value type).
-/

namespace Arith

abbrev Key := String

/-- Model of `ArithMap<'a, V>`: the entries of its `hashmap` field. -/
abbrev ArithMap (V : Type) := List (Key × V)

variable {V : Type}

/-- Model of `HashMap::get` / indexing: the first entry with the given key. -/
def lookup : ArithMap V → Key → Option V
  | [], _ => none
  | kv :: rest, k => if kv.1 = k then some kv.2 else lookup rest k

/-- Model of `HashMap::contains_key`. -/
def containsKey (m : ArithMap V) (k : Key) : Bool :=
  (lookup m k).isSome

/-- Model of `a.get(key).copied().unwrap_or(d)`: lookup with a default. -/
def getD (m : ArithMap V) (k : Key) (d : V) : V :=
  (lookup m k).getD d

/-- The key set (as a list). -/
def keys (m : ArithMap V) : List Key :=
  m.map Prod.fst

/-- Invariant of a real `HashMap`: every key occurs at most once. -/
def NodupKeys (m : ArithMap V) : Prop :=
  (keys m).Nodup

instance (m : ArithMap V) : Decidable (NodupKeys m) := by
  unfold NodupKeys; infer_instance

/-- Model of `HashMap::insert`: overwrite the entry if the key is present,
otherwise append a new entry. -/
def insert : ArithMap V → Key → V → ArithMap V
  | [], k, v => [(k, v)]
  | kv :: rest, k, v => if kv.1 = k then (k, v) :: rest else kv :: insert rest k v

/-- Model of `ArithMap::default()` (the derived `Default`): no entries. -/
def empty : ArithMap V := []

/-- Model of the first loop of `Add`/`Sub` for maps:
`for (k, v) in a.hashmap.iter() { r.hashmap.insert(*k, *v); }`. -/
def copyFrom (r : ArithMap V) (a : ArithMap V) : ArithMap V :=
  a.foldl (fun r kv => insert r kv.1 kv.2) r

/-- Model of `ArithMap::prune`:
`self.hashmap.retain(|_, &mut v| v != zero)` with `zero = Default::default()`. -/
def prune [Zero V] [DecidableEq V] (m : ArithMap V) : ArithMap V :=
  m.filter (fun kv => decide (kv.2 ≠ 0))

/-- Model of `impl Add<V> for ArithMap` (scalar): `*v += other` on every value. -/
def addScalar [Add V] (m : ArithMap V) (s : V) : ArithMap V :=
  m.map (fun kv => (kv.1, kv.2 + s))

/-- Model of `impl AddAssign<V> for ArithMap` (scalar, in place): same loop body
as the value-producing form. -/
def addScalarAssign [Add V] (m : ArithMap V) (s : V) : ArithMap V :=
  m.map (fun kv => (kv.1, kv.2 + s))

/-- Model of `impl Sub<V> for ArithMap` (scalar): `*v -= other` on every value. -/
def subScalar [Sub V] (m : ArithMap V) (s : V) : ArithMap V :=
  m.map (fun kv => (kv.1, kv.2 - s))

/-- Model of `impl SubAssign<V> for ArithMap` (scalar, in place). -/
def subScalarAssign [Sub V] (m : ArithMap V) (s : V) : ArithMap V :=
  m.map (fun kv => (kv.1, kv.2 - s))

/-- Model of `impl Mul<V> for ArithMap` (scalar): `*v *= other` on every value. -/
def mulScalar [Mul V] (m : ArithMap V) (s : V) : ArithMap V :=
  m.map (fun kv => (kv.1, kv.2 * s))

/-- Model of `impl MulAssign<V> for ArithMap` (scalar, in place). -/
def mulScalarAssign [Mul V] (m : ArithMap V) (s : V) : ArithMap V :=
  m.map (fun kv => (kv.1, kv.2 * s))

/-- Model of `impl AddAssign for ArithMap` (map-to-map, in place): for each
entry of `other`, add onto the present value or insert the value. -/
def addAssign [Add V] (m : ArithMap V) (other : ArithMap V) : ArithMap V :=
  other.foldl
    (fun m kv =>
      match lookup m kv.1 with
      | some v1 => insert m kv.1 (v1 + kv.2)
      | none => insert m kv.1 kv.2)
    m

/-- Model of `impl Add for ArithMap` (map-to-map): copy `a` into a fresh map,
then run the same merge loop over `b`. -/
def hAdd [Add V] (a b : ArithMap V) : ArithMap V :=
  b.foldl
    (fun r kv =>
      match lookup r kv.1 with
      | some v1 => insert r kv.1 (v1 + kv.2)
      | none => insert r kv.1 kv.2)
    (copyFrom empty a)

/-- Model of `impl SubAssign for ArithMap` (map-to-map, in place): for each
entry of `other`, subtract from the present value or insert `zero - value`. -/
def subAssign [Sub V] [Zero V] (m : ArithMap V) (other : ArithMap V) : ArithMap V :=
  other.foldl
    (fun m kv =>
      match lookup m kv.1 with
      | some v1 => insert m kv.1 (v1 - kv.2)
      | none => insert m kv.1 (0 - kv.2))
    m

/-- Model of `impl Sub for ArithMap` (map-to-map): copy `a` into a fresh map,
then run the same merge loop over `b`. -/
def hSub [Sub V] [Zero V] (a b : ArithMap V) : ArithMap V :=
  b.foldl
    (fun r kv =>
      match lookup r kv.1 with
      | some v1 => insert r kv.1 (v1 - kv.2)
      | none => insert r kv.1 (0 - kv.2))
    (copyFrom empty a)

/-- Model of the `arithmap!` literal macro: start from an empty map and insert
the given pairs in order (so a later duplicate key overwrites an earlier one). -/
def ofPairs (ps : List (Key × V)) : ArithMap V :=
  ps.foldl (fun m kv => insert m kv.1 kv.2) empty

/-- Observable equality of two maps, as the derived `PartialEq` of `HashMap`
compares them: they hold exactly the same set of (key, value) entries. -/
def EqEntries (a b : ArithMap V) : Prop :=
  ∀ kv : Key × V, kv ∈ a ↔ kv ∈ b

/-! ### Basic lemmas about `lookup`, `insert` and `keys` -/

theorem lookup_insert (m : ArithMap V) (k : Key) (v : V) (q : Key) :
    lookup (insert m k v) q = if k = q then some v else lookup m q := by
  induction m with
  | nil => simp [insert, lookup]
  | cons kv rest ih =>
    by_cases h : kv.1 = k
    · subst h
      by_cases hq : kv.1 = q <;> simp [insert, lookup, hq]
    · by_cases hq : kv.1 = q
      · subst hq
        have hk : ¬ k = kv.1 := fun hh => h hh.symm
        simp [insert, lookup, h, hk]
      · simp [insert, lookup, h, hq, ih]

theorem mem_keys (m : ArithMap V) (k : Key) :
    k ∈ keys m ↔ ∃ v, (k, v) ∈ m := by
  simp only [keys, List.mem_map]
  constructor
  · rintro ⟨⟨k1, v⟩, hmem, h⟩
    obtain rfl : k1 = k := h
    exact ⟨v, hmem⟩
  · rintro ⟨v, hv⟩
    exact ⟨(k, v), hv, rfl⟩

theorem lookup_isSome (m : ArithMap V) (k : Key) :
    (lookup m k).isSome = true ↔ k ∈ keys m := by
  induction m with
  | nil => simp [lookup, keys]
  | cons kv rest ih =>
    by_cases h : kv.1 = k
    · simp only [lookup, if_pos h, Option.isSome_some, keys, List.map_cons,
        List.mem_cons, true_iff]
      exact Or.inl h.symm
    · rw [show lookup (kv :: rest) k = if kv.1 = k then some kv.2 else lookup rest k from rfl,
        if_neg h, ih]
      simp only [keys, List.map_cons, List.mem_cons]
      constructor
      · exact fun hmem => Or.inr hmem
      · rintro (heq | hmem)
        · exact absurd heq.symm h
        · exact hmem

theorem lookup_eq_none (m : ArithMap V) (k : Key) :
    lookup m k = none ↔ k ∉ keys m := by
  rw [← lookup_isSome]
  cases lookup m k <;> simp

theorem mem_keys_insert (m : ArithMap V) (k : Key) (v : V) (q : Key) :
    q ∈ keys (insert m k v) ↔ q = k ∨ q ∈ keys m := by
  rw [← lookup_isSome, ← lookup_isSome, lookup_insert]
  by_cases h : k = q
  · subst h; simp
  · have hq : ¬ q = k := fun hh => h hh.symm
    simp [h, hq]

theorem nodupKeys_insert (m : ArithMap V) (k : Key) (v : V)
    (hm : NodupKeys m) : NodupKeys (insert m k v) := by
  induction m with
  | nil => simp [insert, NodupKeys, keys]
  | cons kv rest ih =>
    rw [NodupKeys, keys] at hm
    simp only [List.map_cons, List.nodup_cons] at hm
    by_cases h : kv.1 = k
    · subst h
      simpa [insert, NodupKeys, keys] using hm
    · have h1 := ih hm.2
      rw [NodupKeys, keys]
      simp only [insert, h, if_false, List.map_cons, List.nodup_cons]
      refine ⟨?_, h1⟩
      intro hmem
      rcases (mem_keys_insert rest k v kv.1).1 hmem with h2 | h2
      · exact h h2
      · exact hm.1 h2

theorem mem_keys_of_mem {m : ArithMap V} {kv : Key × V} (h : kv ∈ m) :
    kv.1 ∈ keys m :=
  List.mem_map.2 ⟨kv, h, rfl⟩

theorem mem_iff_lookup {m : ArithMap V} (hm : NodupKeys m) (k : Key) (v : V) :
    (k, v) ∈ m ↔ lookup m k = some v := by
  induction m with
  | nil => simp [lookup]
  | cons kv rest ih =>
    rw [NodupKeys, keys] at hm
    simp only [List.map_cons, List.nodup_cons] at hm
    have ihr := ih hm.2
    by_cases h : kv.1 = k
    · have hnot : (k, v) ∉ rest := by
        intro hmem
        apply hm.1
        have h2 := mem_keys_of_mem hmem
        rwa [h]
      constructor
      · intro hmem
        rcases List.mem_cons.1 hmem with heq | hmem2
        · have h2 : kv.2 = v := by rw [← heq]
          simp [lookup, h, h2]
        · exact absurd hmem2 hnot
      · intro hl
        simp only [lookup, if_pos h, Option.some.injEq] at hl
        have hkv : kv = (k, v) := by
          cases kv
          simp only [Prod.mk.injEq]
          exact ⟨h, hl⟩
        rw [hkv]
        exact List.mem_cons_self _ _
    · constructor
      · intro hmem
        rcases List.mem_cons.1 hmem with heq | hmem2
        · exact absurd (congrArg Prod.fst heq.symm) h
        · simp only [lookup, if_neg h]
          exact ihr.1 hmem2
      · intro hl
        simp only [lookup, if_neg h] at hl
        exact List.mem_cons_of_mem _ (ihr.2 hl)

/-! ### Lemmas about the copy and merge loops -/

theorem lookup_append (l1 l2 : ArithMap V) (q : Key) :
    lookup (l1 ++ l2) q = (lookup l1 q).or (lookup l2 q) := by
  induction l1 with
  | nil => simp [lookup, Option.none_or]
  | cons kv rest ih =>
    by_cases h : kv.1 = q <;> simp [lookup, h, ih, Option.or]

theorem lookup_reverse (m : ArithMap V) (q : Key) (hm : NodupKeys m) :
    lookup m.reverse q = lookup m q := by
  induction m with
  | nil => rfl
  | cons kv rest ih =>
    rw [NodupKeys, keys] at hm
    simp only [List.map_cons, List.nodup_cons] at hm
    rw [List.reverse_cons, lookup_append, ih hm.2]
    by_cases h : kv.1 = q
    · have hnone : lookup rest q = none := by
        rw [lookup_eq_none, ← h]
        exact hm.1
      rw [hnone]
      simp [lookup, h, Option.none_or]
    · simp [lookup, h, Option.or_none]

theorem lookup_copyFrom (a : ArithMap V) (r : ArithMap V) (q : Key) :
    lookup (copyFrom r a) q = (lookup a.reverse q).or (lookup r q) := by
  induction a generalizing r with
  | nil => simp [copyFrom, lookup, Option.none_or]
  | cons kv rest ih =>
    rw [show copyFrom r (kv :: rest) = copyFrom (insert r kv.1 kv.2) rest from rfl, ih]
    rw [List.reverse_cons, lookup_append, Option.or_assoc]
    congr 1
    rw [lookup_insert]
    by_cases h : kv.1 = q <;> simp [lookup, h, Option.none_or, Option.or]

theorem nodupKeys_empty : NodupKeys (empty : ArithMap V) := by
  simp [empty, NodupKeys, keys]

theorem nodupKeys_copyFrom (a : ArithMap V) (r : ArithMap V) (hr : NodupKeys r) :
    NodupKeys (copyFrom r a) := by
  induction a generalizing r with
  | nil => simpa [copyFrom] using hr
  | cons kv rest ih =>
    rw [show copyFrom r (kv :: rest) = copyFrom (insert r kv.1 kv.2) rest from rfl]
    exact ih _ (nodupKeys_insert _ _ _ hr)

theorem lookup_copyFrom_empty (a : ArithMap V) (q : Key) (ha : NodupKeys a) :
    lookup (copyFrom empty a) q = lookup a q := by
  rw [lookup_copyFrom, lookup_reverse a q ha]
  simp [empty, lookup, Option.or_none]

theorem lookup_addAssign [Add V] (b m : ArithMap V) (q : Key) (hb : NodupKeys b) :
    lookup (addAssign m b) q =
      match lookup b q, lookup m q with
      | none, o => o
      | some v2, some v1 => some (v1 + v2)
      | some v2, none => some v2 := by
  induction b generalizing m with
  | nil => simp [addAssign, lookup]
  | cons kv rest ih =>
    rw [NodupKeys, keys] at hb
    simp only [List.map_cons, List.nodup_cons] at hb
    rw [show addAssign m (kv :: rest) =
        addAssign (match lookup m kv.1 with
          | some v1 => insert m kv.1 (v1 + kv.2)
          | none => insert m kv.1 kv.2) rest from rfl,
      ih _ hb.2]
    by_cases h : kv.1 = q
    · subst h
      have hrest : lookup rest kv.1 = none := (lookup_eq_none rest kv.1).2 hb.1
      rw [hrest]
      cases hm : lookup m kv.1 <;>
        simp [lookup, hm, lookup_insert]
    · have hq : lookup (kv :: rest) q = lookup rest q := by
        simp [lookup, h]
      rw [hq]
      cases hm : lookup m kv.1 <;>
        cases hr : lookup rest q <;>
          simp [hm, hr, lookup_insert, h]

theorem nodupKeys_addAssign [Add V] (b m : ArithMap V) (hm : NodupKeys m) :
    NodupKeys (addAssign m b) := by
  induction b generalizing m with
  | nil => simpa [addAssign] using hm
  | cons kv rest ih =>
    rw [show addAssign m (kv :: rest) =
        addAssign (match lookup m kv.1 with
          | some v1 => insert m kv.1 (v1 + kv.2)
          | none => insert m kv.1 kv.2) rest from rfl]
    cases hl : lookup m kv.1 <;>
      · simp only [hl]
        exact ih _ (nodupKeys_insert _ _ _ hm)

theorem lookup_subAssign [Sub V] [Zero V] (b m : ArithMap V) (q : Key) (hb : NodupKeys b) :
    lookup (subAssign m b) q =
      match lookup b q, lookup m q with
      | none, o => o
      | some v2, some v1 => some (v1 - v2)
      | some v2, none => some (0 - v2) := by
  induction b generalizing m with
  | nil => simp [subAssign, lookup]
  | cons kv rest ih =>
    rw [NodupKeys, keys] at hb
    simp only [List.map_cons, List.nodup_cons] at hb
    rw [show subAssign m (kv :: rest) =
        subAssign (match lookup m kv.1 with
          | some v1 => insert m kv.1 (v1 - kv.2)
          | none => insert m kv.1 (0 - kv.2)) rest from rfl,
      ih _ hb.2]
    by_cases h : kv.1 = q
    · subst h
      have hrest : lookup rest kv.1 = none := (lookup_eq_none rest kv.1).2 hb.1
      rw [hrest]
      cases hm : lookup m kv.1 <;>
        simp [lookup, hm, lookup_insert]
    · have hq : lookup (kv :: rest) q = lookup rest q := by
        simp [lookup, h]
      rw [hq]
      cases hm : lookup m kv.1 <;>
        cases hr : lookup rest q <;>
          simp [hm, hr, lookup_insert, h]

theorem nodupKeys_subAssign [Sub V] [Zero V] (b m : ArithMap V) (hm : NodupKeys m) :
    NodupKeys (subAssign m b) := by
  induction b generalizing m with
  | nil => simpa [subAssign] using hm
  | cons kv rest ih =>
    rw [show subAssign m (kv :: rest) =
        subAssign (match lookup m kv.1 with
          | some v1 => insert m kv.1 (v1 - kv.2)
          | none => insert m kv.1 (0 - kv.2)) rest from rfl]
    cases hl : lookup m kv.1 <;>
      · simp only [hl]
        exact ih _ (nodupKeys_insert _ _ _ hm)

theorem hAdd_eq_addAssign [Add V] (a b : ArithMap V) :
    hAdd a b = addAssign (copyFrom empty a) b := rfl

theorem lookup_hAdd [Add V] (a b : ArithMap V) (q : Key)
    (ha : NodupKeys a) (hb : NodupKeys b) :
    lookup (hAdd a b) q =
      match lookup b q, lookup a q with
      | none, o => o
      | some v2, some v1 => some (v1 + v2)
      | some v2, none => some v2 := by
  rw [hAdd_eq_addAssign, lookup_addAssign b _ q hb, lookup_copyFrom_empty a q ha]

theorem nodupKeys_hAdd [Add V] (a b : ArithMap V) : NodupKeys (hAdd a b) := by
  rw [hAdd_eq_addAssign]
  exact nodupKeys_addAssign b _ (nodupKeys_copyFrom a empty nodupKeys_empty)

theorem hSub_eq_subAssign [Sub V] [Zero V] (a b : ArithMap V) :
    hSub a b = subAssign (copyFrom empty a) b := rfl

theorem lookup_hSub [Sub V] [Zero V] (a b : ArithMap V) (q : Key)
    (ha : NodupKeys a) (hb : NodupKeys b) :
    lookup (hSub a b) q =
      match lookup b q, lookup a q with
      | none, o => o
      | some v2, some v1 => some (v1 - v2)
      | some v2, none => some (0 - v2) := by
  rw [hSub_eq_subAssign, lookup_subAssign b _ q hb, lookup_copyFrom_empty a q ha]

theorem nodupKeys_hSub [Sub V] [Zero V] (a b : ArithMap V) : NodupKeys (hSub a b) := by
  rw [hSub_eq_subAssign]
  exact nodupKeys_subAssign b _ (nodupKeys_copyFrom a empty nodupKeys_empty)

/-! ### Lemmas about the scalar loops, `prune` and `ofPairs` -/

theorem lookup_mapSnd (f : V → V) (m : ArithMap V) (q : Key) :
    lookup (m.map (fun kv => (kv.1, f kv.2))) q = (lookup m q).map f := by
  induction m with
  | nil => simp [lookup]
  | cons kv rest ih =>
    by_cases h : kv.1 = q <;> simp [lookup, h, ih]

theorem keys_mapSnd (f : V → V) (m : ArithMap V) :
    keys (m.map (fun kv => (kv.1, f kv.2))) = keys m := by
  induction m with
  | nil => rfl
  | cons kv rest ih =>
    simp only [List.map_cons, keys] at ih ⊢
    simp [ih]

theorem mem_prune [Zero V] [DecidableEq V] (m : ArithMap V) (kv : Key × V) :
    kv ∈ prune m ↔ kv ∈ m ∧ kv.2 ≠ 0 := by
  simp [prune, List.mem_filter]

theorem prune_prune [Zero V] [DecidableEq V] (m : ArithMap V) :
    prune (prune m) = prune m := by
  induction m with
  | nil => rfl
  | cons kv rest ih =>
    simp only [prune] at ih ⊢
    by_cases h : kv.2 = 0 <;> simp [List.filter_cons, h, ih]

theorem ofPairs_eq_copyFrom (ps : List (Key × V)) : ofPairs ps = copyFrom empty ps := rfl

theorem lookup_ofPairs (ps : List (Key × V)) (q : Key) :
    lookup (ofPairs ps) q = lookup ps.reverse q := by
  rw [ofPairs_eq_copyFrom, lookup_copyFrom]
  simp [empty, lookup, Option.or_none]

theorem eqEntries_of_lookup_eq {a b : ArithMap V} (ha : NodupKeys a) (hb : NodupKeys b)
    (h : ∀ q, lookup a q = lookup b q) : EqEntries a b := by
  intro kv
  cases kv with
  | mk k v => rw [mem_iff_lookup ha k v, mem_iff_lookup hb k v, h]

theorem lookup_insert_congr {m1 m2 : ArithMap V} (h : ∀ q, lookup m1 q = lookup m2 q)
    (k : Key) (v : V) (q : Key) :
    lookup (insert m1 k v) q = lookup (insert m2 k v) q := by
  rw [lookup_insert, lookup_insert]
  by_cases hq : k = q <;> simp [hq, h q]

theorem lookup_addAssign_congr [Add V] (b : ArithMap V) (m1 m2 : ArithMap V)
    (h : ∀ q, lookup m1 q = lookup m2 q) (q : Key) :
    lookup (addAssign m1 b) q = lookup (addAssign m2 b) q := by
  induction b generalizing m1 m2 with
  | nil => simpa [addAssign] using h q
  | cons kv rest ih =>
    rw [show addAssign m1 (kv :: rest) =
        addAssign (match lookup m1 kv.1 with
          | some v1 => insert m1 kv.1 (v1 + kv.2)
          | none => insert m1 kv.1 kv.2) rest from rfl]
    rw [show addAssign m2 (kv :: rest) =
        addAssign (match lookup m2 kv.1 with
          | some v1 => insert m2 kv.1 (v1 + kv.2)
          | none => insert m2 kv.1 kv.2) rest from rfl]
    apply ih
    intro q2
    have h1 := h kv.1
    cases hm : lookup m2 kv.1 with
    | none =>
      rw [hm] at h1
      simp only [h1, hm]
      exact lookup_insert_congr h kv.1 kv.2 q2
    | some v1 =>
      rw [hm] at h1
      simp only [h1, hm]
      exact lookup_insert_congr h kv.1 (v1 + kv.2) q2

theorem lookup_subAssign_congr [Sub V] [Zero V] (b : ArithMap V) (m1 m2 : ArithMap V)
    (h : ∀ q, lookup m1 q = lookup m2 q) (q : Key) :
    lookup (subAssign m1 b) q = lookup (subAssign m2 b) q := by
  induction b generalizing m1 m2 with
  | nil => simpa [subAssign] using h q
  | cons kv rest ih =>
    rw [show subAssign m1 (kv :: rest) =
        subAssign (match lookup m1 kv.1 with
          | some v1 => insert m1 kv.1 (v1 - kv.2)
          | none => insert m1 kv.1 (0 - kv.2)) rest from rfl]
    rw [show subAssign m2 (kv :: rest) =
        subAssign (match lookup m2 kv.1 with
          | some v1 => insert m2 kv.1 (v1 - kv.2)
          | none => insert m2 kv.1 (0 - kv.2)) rest from rfl]
    apply ih
    intro q2
    have h1 := h kv.1
    cases hm : lookup m2 kv.1 with
    | none =>
      rw [hm] at h1
      simp only [h1, hm]
      exact lookup_insert_congr h kv.1 (0 - kv.2) q2
    | some v1 =>
      rw [hm] at h1
      simp only [h1, hm]
      exact lookup_insert_congr h kv.1 (v1 - kv.2) q2

/-! ### Claim theorems -/

/-- C1: map-to-map addition (`impl Add for ArithMap`) has union-of-keys
semantics: looking up any key in `a + b` yields
`some (a.get(k, 0) + b.get(k, 0))` when either operand contains the key, and
`none` otherwise — so the result's key set is exactly the union of the two key
sets, a key present in only one operand is treated as zero in the other, and
zero is the value type's additive identity. -/
theorem hAdd_union_lookup [AddZeroClass V] (a b : ArithMap V)
    (ha : NodupKeys a) (hb : NodupKeys b) (k : Key) :
    lookup (hAdd a b) k =
      if containsKey a k || containsKey b k then
        some (getD a k 0 + getD b k 0)
      else none := by
  rw [lookup_hAdd a b k ha hb]
  cases hak : lookup a k <;> cases hbk : lookup b k <;>
    simp [containsKey, getD, hak, hbk, add_zero, zero_add]

/-- Witness for C1 at the spec's Example 1. -/
theorem hAdd_union_lookup_witness :
    NodupKeys ([("a", 1), ("b", 2)] : ArithMap Int)
    ∧ NodupKeys ([("b", 2), ("c", 3)] : ArithMap Int)
    ∧ lookup (hAdd ([("a", 1), ("b", 2)] : ArithMap Int) [("b", 2), ("c", 3)]) "b" =
        if containsKey ([("a", 1), ("b", 2)] : ArithMap Int) "b"
            || containsKey ([("b", 2), ("c", 3)] : ArithMap Int) "b" then
          some (getD ([("a", 1), ("b", 2)] : ArithMap Int) "b" 0
            + getD ([("b", 2), ("c", 3)] : ArithMap Int) "b" 0)
        else none :=
  ⟨by decide, by decide,
    hAdd_union_lookup [("a", 1), ("b", 2)] [("b", 2), ("c", 3)] (by decide) (by decide) "b"⟩

/-- C2: map-to-map subtraction (`impl Sub for ArithMap`) has union-of-keys
semantics: looking up any key in `a - b` yields
`some (a.get(k, 0) - b.get(k, 0))` when either operand contains the key, and
`none` otherwise — in particular a key present only in `b` appears with value
`0 - b[k]`. -/
theorem hSub_union_lookup [SubtractionMonoid V] (a b : ArithMap V)
    (ha : NodupKeys a) (hb : NodupKeys b) (k : Key) :
    lookup (hSub a b) k =
      if containsKey a k || containsKey b k then
        some (getD a k 0 - getD b k 0)
      else none := by
  rw [lookup_hSub a b k ha hb]
  cases hak : lookup a k <;> cases hbk : lookup b k <;>
    simp [containsKey, getD, hak, hbk, sub_zero, zero_sub]

/-- Witness for C2 at the spec's Example 2. -/
theorem hSub_union_lookup_witness :
    NodupKeys ([("a", 1), ("b", 2)] : ArithMap Int)
    ∧ NodupKeys ([("b", 2), ("c", 3)] : ArithMap Int)
    ∧ lookup (hSub ([("a", 1), ("b", 2)] : ArithMap Int) [("b", 2), ("c", 3)]) "c" =
        if containsKey ([("a", 1), ("b", 2)] : ArithMap Int) "c"
            || containsKey ([("b", 2), ("c", 3)] : ArithMap Int) "c" then
          some (getD ([("a", 1), ("b", 2)] : ArithMap Int) "c" 0
            - getD ([("b", 2), ("c", 3)] : ArithMap Int) "c" 0)
        else none :=
  ⟨by decide, by decide,
    hSub_union_lookup [("a", 1), ("b", 2)] [("b", 2), ("c", 3)] (by decide) (by decide) "c"⟩

/-- C3: `prune` removes exactly the entries whose value equals zero (the value
type's zero/default), keeps every entry with a non-zero value unchanged (same
key, same value), and is idempotent. -/
theorem prune_removes_exactly_zeros [Zero V] [DecidableEq V] (m : ArithMap V) :
    (∀ kv : Key × V, kv ∈ prune m ↔ kv ∈ m ∧ kv.2 ≠ 0)
    ∧ prune (prune m) = prune m :=
  ⟨mem_prune m, prune_prune m⟩

/-- C4: each scalar operation (`Add<V>`, `Sub<V>`, `Mul<V>` for `ArithMap`)
replaces every value `v` by `v + s`, `v - s`, `v * s` respectively and leaves
the key set exactly unchanged. -/
theorem scalar_ops_lookup [Add V] [Sub V] [Mul V] (m : ArithMap V) (s : V) :
    keys (addScalar m s) = keys m
    ∧ keys (subScalar m s) = keys m
    ∧ keys (mulScalar m s) = keys m
    ∧ ∀ k, lookup (addScalar m s) k = (lookup m k).map (fun v => v + s)
        ∧ lookup (subScalar m s) k = (lookup m k).map (fun v => v - s)
        ∧ lookup (mulScalar m s) k = (lookup m k).map (fun v => v * s) :=
  ⟨keys_mapSnd (fun v => v + s) m, keys_mapSnd (fun v => v - s) m,
    keys_mapSnd (fun v => v * s) m,
    fun k => ⟨lookup_mapSnd (fun v => v + s) m k, lookup_mapSnd (fun v => v - s) m k,
      lookup_mapSnd (fun v => v * s) m k⟩⟩

/-- C5: the in-place operators agree with the value-producing ones: `x += y`
leaves the receiver equal (as a set of entries) to `x + y` computed from the
original `x`, likewise `x -= y` and `x - y`; the in-place scalar forms produce
exactly the value-producing scalar forms' per-entry results. -/
theorem assign_ops_refine [Add V] [Sub V] [Zero V] [Mul V]
    (x y : ArithMap V) (s : V) (hx : NodupKeys x) :
    EqEntries (addAssign x y) (hAdd x y)
    ∧ EqEntries (subAssign x y) (hSub x y)
    ∧ addScalarAssign x s = addScalar x s
    ∧ subScalarAssign x s = subScalar x s
    ∧ mulScalarAssign x s = mulScalar x s := by
  refine ⟨?_, ?_, rfl, rfl, rfl⟩
  · apply eqEntries_of_lookup_eq (nodupKeys_addAssign y x hx) (nodupKeys_hAdd x y)
    intro q
    rw [hAdd_eq_addAssign]
    exact lookup_addAssign_congr y x _
      (fun q2 => (lookup_copyFrom_empty x q2 hx).symm) q
  · apply eqEntries_of_lookup_eq (nodupKeys_subAssign y x hx) (nodupKeys_hSub x y)
    intro q
    rw [hSub_eq_subAssign]
    exact lookup_subAssign_congr y x _
      (fun q2 => (lookup_copyFrom_empty x q2 hx).symm) q

/-- Witness for C5 at the spec's Examples 1 and 2. -/
theorem assign_ops_refine_witness :
    NodupKeys ([("a", 1), ("b", 2)] : ArithMap Int)
    ∧ (EqEntries (addAssign ([("a", 1), ("b", 2)] : ArithMap Int) [("b", 2), ("c", 3)])
          (hAdd [("a", 1), ("b", 2)] [("b", 2), ("c", 3)])
      ∧ EqEntries (subAssign ([("a", 1), ("b", 2)] : ArithMap Int) [("b", 2), ("c", 3)])
          (hSub [("a", 1), ("b", 2)] [("b", 2), ("c", 3)])
      ∧ addScalarAssign ([("a", 1), ("b", 2)] : ArithMap Int) 1 = addScalar [("a", 1), ("b", 2)] 1
      ∧ subScalarAssign ([("a", 1), ("b", 2)] : ArithMap Int) 1 = subScalar [("a", 1), ("b", 2)] 1
      ∧ mulScalarAssign ([("a", 1), ("b", 2)] : ArithMap Int) 1 = mulScalar [("a", 1), ("b", 2)] 1) :=
  ⟨by decide, assign_ops_refine [("a", 1), ("b", 2)] [("b", 2), ("c", 3)] 1 (by decide)⟩

/-- C6: the `arithmap!` literal constructor inserts the given pairs in order,
so looking up a key returns the value it is paired with, a later duplicate
pair overwriting an earlier one (lookup on the reversed pair list finds the
last binding), and a key absent from the list is reported not-found (`none`),
never defaulted to zero. -/
theorem ofPairs_lookup_last (ps : List (Key × V)) (k : Key) :
    lookup (ofPairs ps) k = lookup ps.reverse k
    ∧ (containsKey (ofPairs ps) k = true ↔ k ∈ keys ps) := by
  refine ⟨lookup_ofPairs ps k, ?_⟩
  simp only [containsKey]
  rw [lookup_ofPairs, lookup_isSome]
  simp [keys]

/-- C7: map addition is commutative: `x + y` and `y + x` contain exactly the
same set of (key, value) entries. -/
theorem hAdd_comm_entries [AddCommSemigroup V] (x y : ArithMap V)
    (hx : NodupKeys x) (hy : NodupKeys y) :
    EqEntries (hAdd x y) (hAdd y x) := by
  apply eqEntries_of_lookup_eq (nodupKeys_hAdd x y) (nodupKeys_hAdd y x)
  intro q
  rw [lookup_hAdd x y q hx hy, lookup_hAdd y x q hy hx]
  cases hxq : lookup x q <;> cases hyq : lookup y q <;> simp [add_comm]

/-- Witness for C7 at the spec's Example 1 operands. -/
theorem hAdd_comm_entries_witness :
    NodupKeys ([("a", 1), ("b", 2)] : ArithMap Int)
    ∧ NodupKeys ([("b", 2), ("c", 3)] : ArithMap Int)
    ∧ EqEntries (hAdd ([("a", 1), ("b", 2)] : ArithMap Int) [("b", 2), ("c", 3)])
        (hAdd [("b", 2), ("c", 3)] [("a", 1), ("b", 2)]) :=
  ⟨by decide, by decide,
    hAdd_comm_entries [("a", 1), ("b", 2)] [("b", 2), ("c", 3)] (by decide) (by decide)⟩

/-- C8: scalar add/sub round-trip: `(x + s) - s == x`; the "no overflow"
precondition is modelled by taking the values in an additive group such as ℤ,
where `+` and `-` do not wrap. -/
theorem addScalar_subScalar_roundtrip [AddGroup V] (x : ArithMap V) (s : V) :
    subScalar (addScalar x s) s = x := by
  induction x with
  | nil => rfl
  | cons kv rest ih =>
    show (kv.1, kv.2 + s - s) :: subScalar (addScalar rest s) s = kv :: rest
    rw [ih, add_sub_cancel_right]

/-- C9: every modelled operation is total over its operand types: for every
input it computes a result, and the result type carries no error case (no
bounds check, no missing-key failure). -/
theorem ops_total [AddGroup V] [Mul V] [DecidableEq V] (a b : ArithMap V) (s : V)
    (ps : List (Key × V)) :
    (∃ r, ofPairs ps = r) ∧ (∃ r, prune a = r)
    ∧ (∃ r, addScalar a s = r) ∧ (∃ r, subScalar a s = r) ∧ (∃ r, mulScalar a s = r)
    ∧ (∃ r, addScalarAssign a s = r) ∧ (∃ r, subScalarAssign a s = r)
    ∧ (∃ r, mulScalarAssign a s = r)
    ∧ (∃ r, hAdd a b = r) ∧ (∃ r, addAssign a b = r)
    ∧ (∃ r, hSub a b = r) ∧ (∃ r, subAssign a b = r) :=
  ⟨⟨_, rfl⟩, ⟨_, rfl⟩, ⟨_, rfl⟩, ⟨_, rfl⟩, ⟨_, rfl⟩, ⟨_, rfl⟩, ⟨_, rfl⟩, ⟨_, rfl⟩,
    ⟨_, rfl⟩, ⟨_, rfl⟩, ⟨_, rfl⟩, ⟨_, rfl⟩⟩

/-- C10: the empty map (the derived `Default`) is a two-sided identity for
map-to-map addition, up to entry-set equality. -/
theorem hAdd_empty_identity [Add V] (x : ArithMap V) (hx : NodupKeys x) :
    EqEntries (hAdd x empty) x ∧ EqEntries (hAdd empty x) x := by
  constructor
  · apply eqEntries_of_lookup_eq (nodupKeys_hAdd x empty) hx
    intro q
    rw [lookup_hAdd x empty q hx nodupKeys_empty]
    have he : lookup (empty : ArithMap V) q = none := rfl
    rw [he]
  · apply eqEntries_of_lookup_eq (nodupKeys_hAdd empty x) hx
    intro q
    rw [lookup_hAdd empty x q nodupKeys_empty hx]
    have he : lookup (empty : ArithMap V) q = none := rfl
    rw [he]
    cases hq : lookup x q <;> rfl

/-- Witness for C10 at the spec's Example 1 left operand. -/
theorem hAdd_empty_identity_witness :
    NodupKeys ([("a", 1), ("b", 2)] : ArithMap Int)
    ∧ (EqEntries (hAdd ([("a", 1), ("b", 2)] : ArithMap Int) empty) [("a", 1), ("b", 2)]
      ∧ EqEntries (hAdd empty ([("a", 1), ("b", 2)] : ArithMap Int)) [("a", 1), ("b", 2)]) :=
  ⟨by decide, hAdd_empty_identity [("a", 1), ("b", 2)] (by decide)⟩

end Arith
